import Mathlib

/-!
Verification of the linked-list FIFO queue in
`src/c++/Queue_using_LinkedLIst.cpp`.

The C++ code manages raw pointers (`LinkedList*`) with manual `new`/`delete`.
We embed it with an explicit heap: a list of `Option Node` indexed by natural
addresses.  `new` appends a fresh live cell at address `heap.length`;
`delete a` sets slot `a` to `none`.  Dereferencing a freed or out-of-range
address is undefined behaviour, modelled by operations returning `Option`:
`none` means the C++ execution would be undefined.  We prove that on every
state reachable from the constructor no operation is undefined.
-/

/-- One `LinkedList` node: `int val; LinkedList* next;`.  A null `next`
pointer is `none`. -/
structure Node where
  val : Int
  next : Option Nat
deriving Repr, DecidableEq

/-- The store of allocated nodes.  Slot `a` holds `some nd` while address `a`
is live, `none` once it has been freed.  Addresses ≥ `heap.length` were never
allocated. -/
abbrev Heap := List (Option Node)

/-- Dereference address `a`: the node stored there, or `none` if `a` was
freed or never allocated. -/
def getNode (h : Heap) (a : Nat) : Option Node :=
  (h.get? a).join

/-- The `Queue` object: `LinkedList *frontNode, *rearNode; int count;`
together with the heap of nodes it owns. -/
structure Queue where
  heap : Heap
  frontNode : Option Nat
  rearNode : Option Nat
  count : Int
deriving Repr, DecidableEq

namespace Queue

/-- The constructor: `frontNode = rearNode = nullptr; count = 0;`. -/
def init : Queue := ⟨[], none, none, 0⟩

/-- `int front()`: returns `-1` (after printing a message) when
`frontNode == nullptr`, otherwise `frontNode->val`.  The outer `none` marks
an undefined dereference, which never happens in reachable states. -/
def front (q : Queue) : Option Int :=
  match q.frontNode with
  | none => some (-1)
  | some a => (getNode q.heap a).map (fun nd => nd.val)

/-- `int size()`: returns `count`. -/
def size (q : Queue) : Int := q.count

/-- `int pop()`: on empty prints a message and returns `-1` with the queue
untouched; otherwise saves `frontNode->val`, advances `frontNode` to
`frontNode->next`, resets `rearNode` to null if the queue drained,
deletes the old front node, and decrements `count`. -/
def pop (q : Queue) : Option (Int × Queue) :=
  match q.frontNode with
  | none => some (-1, q)
  | some a =>
    match getNode q.heap a with
    | none => none
    | some nd =>
      some (nd.val,
        { heap := q.heap.set a none
          frontNode := nd.next
          rearNode := if nd.next = none then none else q.rearNode
          count := q.count - 1 })

/-- `void push(int data)`: allocates a fresh node at address `heap.length`;
if `rearNode == nullptr` both `frontNode` and `rearNode` become the new node,
otherwise `rearNode->next` is set to the new node and `rearNode` advances;
`count` increments. -/
def push (q : Queue) (data : Int) : Option Queue :=
  let addr := q.heap.length
  let h1 := q.heap ++ [some ⟨data, none⟩]
  match q.rearNode with
  | none =>
    some { heap := h1, frontNode := some addr, rearNode := some addr,
           count := q.count + 1 }
  | some r =>
    match getNode h1 r with
    | none => none
    | some nd =>
      some { heap := h1.set r (some { nd with next := some addr })
             frontNode := q.frontNode
             rearNode := some addr
             count := q.count + 1 }

/-- The destructor loop body: `while (frontNode != nullptr) { temp =
frontNode; frontNode = frontNode->next; delete temp; }`, with fuel for
termination.  Returns the freed addresses in deletion order together with
the final heap; `none` marks an undefined dereference or non-termination
within the fuel. -/
def destroyLoop (h : Heap) : Option Nat → Nat → Option (List Nat × Heap)
  | none, _ => some ([], h)
  | some _, 0 => none
  | some a, fuel + 1 =>
    match getNode h a with
    | none => none
    | some nd =>
      (destroyLoop (h.set a none) nd.next fuel).map
        (fun r => (a :: r.1, r.2))

/-- `~Queue()`: run the destructor loop from `frontNode`.  `heap.length`
steps of fuel are enough for any chain of distinct live nodes. -/
def destruct (q : Queue) : Option (List Nat × Heap) :=
  destroyLoop q.heap q.frontNode q.heap.length

end Queue

/-- The public operations a client of `Queue` can invoke. -/
inductive Op where
  | push (v : Int)
  | pop
  | front
  | size
deriving Repr, DecidableEq

/-- Run one operation, keeping only the queue state.  `front` and `size` do
not mutate; `front` is undefined exactly when its dereference is. -/
def applyOp (q : Queue) : Op → Option Queue
  | .push v => q.push v
  | .pop => (q.pop).map Prod.snd
  | .front => (q.front).map (fun _ => q)
  | .size => some q

/-- Run a sequence of operations. -/
def runOps (q : Queue) : List Op → Option Queue
  | [] => some q
  | op :: rest => (applyOp q op).bind (fun q1 => runOps q1 rest)

/-- Push each value of `vs` in order. -/
def pushAll (q : Queue) : List Int → Option Queue
  | [] => some q
  | v :: vs => (q.push v).bind (fun q1 => pushAll q1 vs)

/-- Pop `n` times, collecting the returned values in order. -/
def popN (q : Queue) : Nat → Option (List Int × Queue)
  | 0 => some ([], q)
  | n + 1 =>
    (q.pop).bind (fun r =>
      (popN r.2 n).map (fun s => (r.1 :: s.1, s.2)))

/-- Run operations while counting pushes and successful pops (a pop is
successful when the code does not take the `frontNode == nullptr` error
branch). -/
def runCount (q : Queue) (p s : Nat) : List Op → Option (Queue × Nat × Nat)
  | [] => some (q, p, s)
  | .push v :: rest => (q.push v).bind (fun q1 => runCount q1 (p + 1) s rest)
  | .pop :: rest =>
    (q.pop).bind (fun r =>
      runCount r.2 p (if q.frontNode = none then s else s + 1) rest)
  | .front :: rest => (q.front).bind (fun _ => runCount q p s rest)
  | .size :: rest => runCount q p s rest

/-- `chainSeg h p l e`: starting at pointer `p`, the heap `h` holds the
(address, value) cells of `l` linked in order by `next`, with the last
`next` equal to `e`. -/
def chainSeg (h : Heap) : Option Nat → List (Nat × Int) → Option Nat → Prop
  | p, [], e => p = e
  | p, c :: rest, e =>
    p = some c.1 ∧ ∃ nd, getNode h c.1 = some nd ∧ nd.val = c.2 ∧
      chainSeg h nd.next rest e

/-- The full node chain of a queue: from `p` to the null pointer. -/
def isChain (h : Heap) (p : Option Nat) (l : List (Nat × Int)) : Prop :=
  chainSeg h p l none

/-- Addresses of a chain description, front first. -/
def addrsOf (l : List (Nat × Int)) : List Nat := l.map Prod.fst

/-- Stored values of a chain description, front first. -/
def valsOf (l : List (Nat × Int)) : List Int := l.map Prod.snd

/-- Follow `next` links `n` times from pointer `p`; `none` marks an
undefined dereference along the way. -/
def follow (h : Heap) : Option Nat → Nat → Option (Option Nat)
  | p, 0 => some p
  | none, _ + 1 => none
  | some a, n + 1 =>
    match getNode h a with
    | none => none
    | some nd => follow h nd.next n

/-- The representation invariant of `Queue`, relative to the abstract chain
`l` of (address, value) cells: `frontNode` heads a `next`-linked chain
through exactly the cells of `l`, `count` is its length, `rearNode` is its
last address, addresses are pairwise distinct, and every live heap slot
belongs to the chain. -/
structure QInv (q : Queue) (l : List (Nat × Int)) : Prop where
  chain : isChain q.heap q.frontNode l
  len : q.count = l.length
  rear : q.rearNode = (addrsOf l).getLast?
  nodup : (addrsOf l).Nodup
  live : ∀ a nd, getNode q.heap a = some nd → a ∈ addrsOf l

/-- The queue state reached by `push(10)` from a fresh queue. -/
def q10 : Queue := ⟨[some ⟨10, none⟩], some 0, some 0, 1⟩

/-- The queue state reached by `push(10); push(20)` from a fresh queue. -/
def q1020 : Queue := ⟨[some ⟨10, some 1⟩, some ⟨20, none⟩], some 0, some 1, 2⟩

/-- The queue state reached by `push(7)` from a fresh queue. -/
def q7 : Queue := ⟨[some ⟨7, none⟩], some 0, some 0, 1⟩

/-- The queue state reached by `push(5)` from a fresh queue. -/
def q5 : Queue := ⟨[some ⟨5, none⟩], some 0, some 0, 1⟩

/-- The queue state reached by `push(10); push(20); pop()` from a fresh
queue: slot 0 has been freed, node 1 is still live. -/
def qPPP : Queue := ⟨[none, some ⟨20, none⟩], some 1, some 1, 1⟩

/-- The queue state reached by `push(-1)` from a fresh queue: the sentinel
value `-1` legitimately stored. -/
def qneg1 : Queue := ⟨[some ⟨-1, none⟩], some 0, some 0, 1⟩

theorem getNode_lt {h : Heap} {a : Nat} {nd : Node}
    (hg : getNode h a = some nd) : a < h.length := by
  by_contra hlt
  push_neg at hlt
  have hn : h[a]? = none := List.getElem?_eq_none hlt
  simp [getNode, hn] at hg

theorem getNode_append {h h2 : Heap} {a : Nat} (ha : a < h.length) :
    getNode (h ++ h2) a = getNode h a := by
  simp [getNode, List.getElem?_append_left ha]

theorem getNode_append_self {h : Heap} {x : Option Node} :
    getNode (h ++ [x]) h.length = x := by
  simp [getNode, List.getElem?_concat_length]

theorem getNode_set_ne {h : Heap} {a b : Nat} {x : Option Node}
    (hne : a ≠ b) : getNode (h.set b x) a = getNode h a := by
  simp [getNode, List.getElem?_set_ne (Ne.symm hne)]

theorem getNode_set_self {h : Heap} {b : Nat} {x : Option Node}
    (hb : b < h.length) : getNode (h.set b x) b = x := by
  simp [getNode, List.getElem?_set_self hb]

theorem chainSeg_lt {h : Heap} {l : List (Nat × Int)} :
    ∀ {p e : Option Nat}, chainSeg h p l e → ∀ c ∈ l, c.1 < h.length := by
  induction l with
  | nil => intro p e _ c hc; cases hc
  | cons c0 rest ih =>
    intro p e hch c hc
    obtain ⟨-, nd, hg, -, hrest⟩ := hch
    cases hc with
    | head => exact getNode_lt hg
    | tail _ hmem => exact ih hrest c hmem

theorem chainSeg_append {h : Heap} {l1 l2 : List (Nat × Int)} :
    ∀ {p m e : Option Nat}, chainSeg h p l1 m → chainSeg h m l2 e →
    chainSeg h p (l1 ++ l2) e := by
  induction l1 with
  | nil => intro p m e h1 h2; cases h1; exact h2
  | cons c rest ih =>
    intro p m e h1 h2
    obtain ⟨hp, nd, hg, hv, hrest⟩ := h1
    exact ⟨hp, nd, hg, hv, ih hrest h2⟩

theorem chainSeg_frame_append {h h2 : Heap} {l : List (Nat × Int)} :
    ∀ {p e : Option Nat}, chainSeg h p l e → chainSeg (h ++ h2) p l e := by
  induction l with
  | nil => intro p e h1; exact h1
  | cons c rest ih =>
    intro p e h1
    obtain ⟨hp, nd, hg, hv, hrest⟩ := h1
    exact ⟨hp, nd, by rw [getNode_append (getNode_lt hg)]; exact hg, hv,
      ih hrest⟩

theorem chainSeg_frame_set {h : Heap} {a : Nat} {x : Option Node}
    {l : List (Nat × Int)} :
    ∀ {p e : Option Nat}, a ∉ addrsOf l → chainSeg h p l e →
    chainSeg (h.set a x) p l e := by
  induction l with
  | nil => intro p e _ h1; exact h1
  | cons c rest ih =>
    intro p e hna h1
    obtain ⟨hp, nd, hg, hv, hrest⟩ := h1
    simp only [addrsOf, List.map_cons, List.mem_cons] at hna
    push_neg at hna
    exact ⟨hp, nd, by rw [getNode_set_ne (Ne.symm hna.1)]; exact hg, hv,
      ih (by simpa [addrsOf] using hna.2) hrest⟩

theorem chainSeg_nil_iff {h : Heap} {p e : Option Nat} :
    chainSeg h p ([] : List (Nat × Int)) e ↔ p = e := Iff.rfl

theorem chainSeg_concat {h : Heap} {c : Nat × Int} {l0 : List (Nat × Int)} :
    ∀ {p e : Option Nat},
    chainSeg h p (l0 ++ [c]) e ↔
      ∃ nd, chainSeg h p l0 (some c.1) ∧ getNode h c.1 = some nd ∧
        nd.val = c.2 ∧ nd.next = e := by
  induction l0 with
  | nil =>
    intro p e
    constructor
    · rintro ⟨hp, nd, hg, hv, hrest⟩
      exact ⟨nd, hp, hg, hv, hrest⟩
    · rintro ⟨nd, hp, hg, hv, hnext⟩
      exact ⟨hp, nd, hg, hv, hnext⟩
  | cons c0 rest ih =>
    intro p e
    constructor
    · rintro ⟨hp, nd, hg, hv, hrest⟩
      obtain ⟨nd2, hseg, hg2, hv2, hn2⟩ := ih.mp hrest
      exact ⟨nd2, ⟨hp, nd, hg, hv, hseg⟩, hg2, hv2, hn2⟩
    · rintro ⟨nd2, ⟨hp, nd, hg, hv, hseg⟩, hg2, hv2, hn2⟩
      exact ⟨hp, nd, hg, hv, ih.mpr ⟨nd2, hseg, hg2, hv2, hn2⟩⟩

theorem chainSeg_addr_lt {h : Heap} {p e : Option Nat}
    {l : List (Nat × Int)} (hch : chainSeg h p l e) :
    ∀ a ∈ addrsOf l, a < h.length := by
  intro a ha
  obtain ⟨c, hc, rfl⟩ := List.mem_map.mp ha
  exact chainSeg_lt hch c hc

theorem inv_init : QInv Queue.init [] := by
  refine ⟨rfl, rfl, rfl, List.nodup_nil, ?_⟩
  intro a nd hg
  simp [getNode, Queue.init] at hg

theorem inv_front_none {q : Queue} (hq : QInv q []) : q.frontNode = none :=
  hq.chain

theorem inv_front_some {q : Queue} {c : Nat × Int} {rest : List (Nat × Int)}
    (hq : QInv q (c :: rest)) : q.frontNode = some c.1 :=
  hq.chain.1

theorem push_inv {q : Queue} {l : List (Nat × Int)} (hq : QInv q l) (v : Int) :
    ∃ q2, q.push v = some q2 ∧ QInv q2 (l ++ [(q.heap.length, v)]) := by
  rcases List.eq_nil_or_concat l with rfl | ⟨l0, c, rfl⟩
  · have hr : q.rearNode = none := by simpa [addrsOf] using hq.rear
    have hf : q.frontNode = none := hq.chain
    refine ⟨{ heap := q.heap ++ [some ⟨v, none⟩],
              frontNode := some q.heap.length,
              rearNode := some q.heap.length, count := q.count + 1 }, ?_, ?_⟩
    · simp [Queue.push, hr]
    refine ⟨⟨rfl, ⟨v, none⟩, getNode_append_self, rfl, rfl⟩, ?_, ?_, ?_, ?_⟩
    · have h0 : q.count = 0 := by simpa using hq.len
      simp [h0]
    · simp [addrsOf]
    · simp [addrsOf]
    · intro a nd hg
      rcases Nat.lt_trichotomy a q.heap.length with hlt | rfl | hgt
      · rw [getNode_append hlt] at hg
        exact absurd (hq.live a nd hg) (by simp [addrsOf])
      · simp [addrsOf]
      · have := getNode_lt hg
        simp at this
        omega
  · simp only [List.concat_eq_append] at hq ⊢
    have hr : q.rearNode = some c.1 := by
      simpa [addrsOf] using hq.rear
    obtain ⟨ndr, hseg0, hgr, hvr, hnr⟩ := chainSeg_concat.mp hq.chain
    have hclt : c.1 < q.heap.length := getNode_lt hgr
    have hg1 : getNode (q.heap ++ [some (⟨v, none⟩ : Node)]) c.1 = some ndr := by
      rw [getNode_append hclt]; exact hgr
    have hcnl0 : c.1 ∉ addrsOf l0 := by
      have hnd := hq.nodup
      simp only [addrsOf, List.map_append, List.map_cons, List.map_nil] at hnd
      rw [List.nodup_append] at hnd
      intro hmem
      simp only [addrsOf] at hmem
      exact hnd.2.2 hmem (by simp)
    refine ⟨{ heap := (q.heap ++ [some (⟨v, none⟩ : Node)]).set c.1
                (some { ndr with next := some q.heap.length }),
              frontNode := q.frontNode,
              rearNode := some q.heap.length, count := q.count + 1 }, ?_, ?_⟩
    · simp [Queue.push, hr, hg1]
    set addr := q.heap.length with haddr
    set h2 : Heap :=
      (q.heap ++ [some (⟨v, none⟩ : Node)]).set c.1
        (some { ndr with next := some addr })
      with hh2
    have hlen1 : c.1 < (q.heap ++ [some (⟨v, none⟩ : Node)]).length := by
      simp; omega
    have hseg0' : chainSeg h2 q.frontNode l0 (some c.1) :=
      chainSeg_frame_set hcnl0 (chainSeg_frame_append hseg0)
    have hgc : getNode h2 c.1 = some { ndr with next := some addr } :=
      getNode_set_self hlen1
    have hga : getNode h2 addr = some ⟨v, none⟩ := by
      rw [getNode_set_ne (by omega)]
      exact getNode_append_self
    have hchain2 : isChain h2 q.frontNode ((l0 ++ [c]) ++ [(addr, v)]) := by
      rw [List.append_assoc]
      exact chainSeg_append hseg0'
        ⟨rfl, _, hgc, hvr, rfl, ⟨v, none⟩, hga, rfl, rfl⟩
    refine ⟨hchain2, ?_, ?_, ?_, ?_⟩
    · have := hq.len
      simp at this ⊢
      omega
    · simp [addrsOf]
    · have hlts := chainSeg_addr_lt hq.chain
      have := hq.nodup
      simp only [addrsOf, List.map_append] at this ⊢
      rw [List.nodup_append]
      refine ⟨this, List.nodup_singleton _, ?_⟩
      intro a ha hb
      simp at hb
      have := hlts a (by simpa [addrsOf] using ha)
      omega
    · intro a nd hg
      by_cases hac : a = c.1
      · subst hac
        simp [addrsOf]
      · rw [hh2, getNode_set_ne hac] at hg
        by_cases haa : a = addr
        · subst haa
          simp [addrsOf]
        · have halt : a < q.heap.length := by
            have := getNode_lt hg
            simp at this
            omega
          rw [getNode_append halt] at hg
          have hmem := hq.live a nd hg
          simp only [addrsOf, List.map_append, List.mem_append] at hmem ⊢
          tauto

theorem pop_inv_cons {q : Queue} {c : Nat × Int} {rest : List (Nat × Int)}
    (hq : QInv q (c :: rest)) :
    ∃ q2, q.pop = some (c.2, q2) ∧ QInv q2 rest := by
  obtain ⟨hp, nd, hg, hv, hrest⟩ := hq.chain
  have hclt : c.1 < q.heap.length := getNode_lt hg
  have hnd := hq.nodup
  simp only [addrsOf, List.map_cons] at hnd
  have hcnr : c.1 ∉ addrsOf rest := (List.nodup_cons.mp hnd).1
  refine ⟨{ heap := q.heap.set c.1 none, frontNode := nd.next,
            rearNode := if nd.next = none then none else q.rearNode,
            count := q.count - 1 }, ?_, ?_⟩
  · simp [Queue.pop, hp, hg, hv]
  refine ⟨chainSeg_frame_set hcnr hrest, ?_, ?_,
    (List.nodup_cons.mp hnd).2, ?_⟩
  · have := hq.len
    simp at this ⊢
    omega
  · cases rest with
    | nil =>
      have hnn : nd.next = none := hrest
      simp [hnn, addrsOf]
    | cons c2 rest2 =>
      have hnn : nd.next = some c2.1 := hrest.1
      rw [hnn]
      simp only [reduceCtorEq, if_false]
      rw [hq.rear]
      simp [addrsOf, List.getLast?_cons_cons]
  · intro a nd2 hg2
    by_cases hac : a = c.1
    · subst hac
      rw [getNode_set_self hclt] at hg2
      cases hg2
    · rw [getNode_set_ne hac] at hg2
      have := hq.live a nd2 hg2
      simp only [addrsOf, List.map_cons, List.mem_cons] at this
      rcases this with he | hm
      · exact absurd he hac
      · exact hm

theorem pop_inv_nil {q : Queue} (hq : QInv q []) : q.pop = some (-1, q) := by
  simp [Queue.pop, inv_front_none hq]

theorem front_inv_cons {q : Queue} {c : Nat × Int} {rest : List (Nat × Int)}
    (hq : QInv q (c :: rest)) : q.front = some c.2 := by
  obtain ⟨hp, nd, hg, hv, -⟩ := hq.chain
  simp [Queue.front, hp, hg, hv]

theorem front_inv_nil {q : Queue} (hq : QInv q []) : q.front = some (-1) := by
  simp [Queue.front, inv_front_none hq]

theorem front_inv_defined {q : Queue} {l : List (Nat × Int)}
    (hq : QInv q l) : ∃ x, q.front = some x := by
  cases l with
  | nil => exact ⟨-1, front_inv_nil hq⟩
  | cons c rest => exact ⟨c.2, front_inv_cons hq⟩

theorem applyOp_inv {q : Queue} {l : List (Nat × Int)} (hq : QInv q l) :
    ∀ op : Op, ∃ q2 l2, applyOp q op = some q2 ∧ QInv q2 l2
  | .push v => by
    obtain ⟨q2, hpu, hinv⟩ := push_inv hq v
    exact ⟨q2, _, by simp [applyOp, hpu], hinv⟩
  | .pop => by
    cases l with
    | nil => exact ⟨q, [], by simp [applyOp, pop_inv_nil hq], hq⟩
    | cons c rest =>
      obtain ⟨q2, hpo, hinv⟩ := pop_inv_cons hq
      exact ⟨q2, rest, by simp [applyOp, hpo], hinv⟩
  | .front => by
    obtain ⟨x, hx⟩ := front_inv_defined hq
    exact ⟨q, l, by simp [applyOp, hx], hq⟩
  | .size => ⟨q, l, rfl, hq⟩

theorem runOps_inv : ∀ (ops : List Op) (q : Queue) (l : List (Nat × Int)),
    QInv q l → ∃ q2 l2, runOps q ops = some q2 ∧ QInv q2 l2
  | [], q, l, hq => ⟨q, l, rfl, hq⟩
  | op :: rest, q, l, hq => by
    obtain ⟨q1, l1, hop, hinv1⟩ := applyOp_inv hq op
    obtain ⟨q2, l2, hrun, hinv2⟩ := runOps_inv rest q1 l1 hinv1
    exact ⟨q2, l2, by simp [runOps, hop, hrun], hinv2⟩

/-- Every state reachable from the constructor satisfies the representation
invariant for some chain. -/
theorem reachable_inv {ops : List Op} {q : Queue}
    (h : runOps Queue.init ops = some q) : ∃ l, QInv q l := by
  obtain ⟨q2, l2, hrun, hinv⟩ := runOps_inv ops Queue.init [] inv_init
  rw [h] at hrun
  injection hrun with he
  exact ⟨l2, he ▸ hinv⟩

theorem pushAll_abs : ∀ (vs : List Int) (q : Queue) (l : List (Nat × Int)),
    QInv q l → ∃ q2 l2, pushAll q vs = some q2 ∧ QInv q2 l2 ∧
      valsOf l2 = valsOf l ++ vs
  | [], q, l, hq => ⟨q, l, rfl, hq, by simp⟩
  | v :: vs, q, l, hq => by
    obtain ⟨q1, hpu, hinv1⟩ := push_inv hq v
    obtain ⟨q2, l2, hrun, hinv2, hvals⟩ :=
      pushAll_abs vs q1 (l ++ [(q.heap.length, v)]) hinv1
    refine ⟨q2, l2, by simp [pushAll, hpu, hrun], hinv2, ?_⟩
    rw [hvals]
    simp [valsOf]

theorem popN_abs : ∀ (l : List (Nat × Int)) (q : Queue), QInv q l →
    ∃ q2, popN q l.length = some (valsOf l, q2) ∧ QInv q2 []
  | [], q, hq => ⟨q, rfl, hq⟩
  | c :: rest, q, hq => by
    obtain ⟨q1, hpo, hinv1⟩ := pop_inv_cons hq
    obtain ⟨q2, hrun, hinv2⟩ := popN_abs rest q1 hinv1
    exact ⟨q2, by simp [popN, hpo, hrun, valsOf], hinv2⟩

theorem count_succ_of_push {q q1 : Queue} {l : List (Nat × Int)} {v : Int}
    (hq : QInv q l) (hinv1 : QInv q1 (l ++ [(q.heap.length, v)])) :
    q1.count = q.count + 1 := by
  have h1 := hq.len
  have h2 := hinv1.len
  simp at h2
  omega

theorem runCount_abs : ∀ (ops : List Op) (q : Queue) (l : List (Nat × Int))
    (p s : Nat), QInv q l → q.count = (p : Int) - (s : Int) →
    ∃ q2 p2 s2, runCount q p s ops = some (q2, p2, s2) ∧
      ∃ l2, QInv q2 l2 ∧ q2.count = (p2 : Int) - (s2 : Int)
  | [], q, l, p, s, hq, hc => ⟨q, p, s, rfl, l, hq, hc⟩
  | .push v :: rest, q, l, p, s, hq, hc => by
    obtain ⟨q1, hpu, hinv1⟩ := push_inv hq v
    have hc1 : q1.count = ((p + 1 : Nat) : Int) - (s : Int) := by
      rw [count_succ_of_push hq hinv1]
      push_cast
      omega
    obtain ⟨q2, p2, s2, hrun, hrest⟩ :=
      runCount_abs rest q1 (l ++ [(q.heap.length, v)]) (p + 1) s hinv1 hc1
    exact ⟨q2, p2, s2, by simp [runCount, hpu, hrun], hrest⟩
  | .pop :: rest, q, l, p, s, hq, hc => by
    cases l with
    | nil =>
      have hpo := pop_inv_nil hq
      have hf := inv_front_none hq
      obtain ⟨q2, p2, s2, hrun, hrest⟩ := runCount_abs rest q [] p s hq hc
      exact ⟨q2, p2, s2, by simp [runCount, hpo, hf, hrun], hrest⟩
    | cons c t =>
      obtain ⟨q1, hpo, hinv1⟩ := pop_inv_cons hq
      have hf := inv_front_some hq
      have hc1 : q1.count = (p : Int) - ((s + 1 : Nat) : Int) := by
        have h1 := hq.len
        have h2 := hinv1.len
        simp at h1
        push_cast
        omega
      obtain ⟨q2, p2, s2, hrun, hrest⟩ :=
        runCount_abs rest q1 t p (s + 1) hinv1 hc1
      exact ⟨q2, p2, s2, by simp [runCount, hpo, hf, hrun], hrest⟩
  | .front :: rest, q, l, p, s, hq, hc => by
    obtain ⟨x, hx⟩ := front_inv_defined hq
    obtain ⟨q2, p2, s2, hrun, hrest⟩ := runCount_abs rest q l p s hq hc
    exact ⟨q2, p2, s2, by simp [runCount, hx, hrun], hrest⟩
  | .size :: rest, q, l, p, s, hq, hc => by
    obtain ⟨q2, p2, s2, hrun, hrest⟩ := runCount_abs rest q l p s hq hc
    exact ⟨q2, p2, s2, by simp [runCount, hrun], hrest⟩

theorem chainSeg_follow {h : Heap} {l : List (Nat × Int)} :
    ∀ {p e : Option Nat}, chainSeg h p l e → follow h p l.length = some e := by
  induction l with
  | nil =>
    intro p e hpe
    have hp : p = e := hpe
    subst hp
    simp [follow]
  | cons c rest ih =>
    intro p e hch
    obtain ⟨hp, nd, hg, -, hrest⟩ := hch
    subst hp
    simp [follow, hg, ih hrest]

theorem destroyLoop_chain : ∀ (l : List (Nat × Int)) (h : Heap)
    (p : Option Nat) (fuel : Nat), isChain h p l → (addrsOf l).Nodup →
    l.length ≤ fuel →
    ∃ h2, Queue.destroyLoop h p fuel = some (addrsOf l, h2) ∧
      ∀ a, getNode h2 a = if a ∈ addrsOf l then none else getNode h a
  | [], h, p, fuel, hch, _, _ => by
    have hp : p = none := hch
    subst hp
    cases fuel <;> exact ⟨h, rfl, fun a => by simp [addrsOf]⟩
  | c :: rest, h, p, fuel, hch, hnd, hle => by
    obtain ⟨hp, nd, hg, -, hrest⟩ := hch
    subst hp
    cases fuel with
    | zero => simp at hle
    | succ f =>
      have hclt : c.1 < h.length := getNode_lt hg
      simp only [addrsOf, List.map_cons] at hnd
      have hcnr : c.1 ∉ addrsOf rest := (List.nodup_cons.mp hnd).1
      have hch1 : isChain (h.set c.1 none) nd.next rest :=
        chainSeg_frame_set hcnr hrest
      obtain ⟨h2, hdl, hprop⟩ := destroyLoop_chain rest (h.set c.1 none)
        nd.next f hch1 (List.nodup_cons.mp hnd).2 (by simpa using hle)
      refine ⟨h2, ?_, ?_⟩
      · simp [Queue.destroyLoop, hg, hdl, addrsOf]
      · intro a
        rw [hprop a]
        by_cases hac : a = c.1
        · subst hac
          simp [addrsOf, if_neg hcnr, getNode_set_self hclt]
        · by_cases har : a ∈ addrsOf rest
          · simp [addrsOf, har] at *
            simp [har]
          · rw [getNode_set_ne hac]
            simp only [addrsOf, List.map_cons, List.mem_cons] at *
            rw [if_neg har, if_neg (by tauto)]

theorem runOps_replicate_front {q : Queue} (hdef : ∃ x, q.front = some x)
    (k : Nat) : runOps q (List.replicate k Op.front) = some q := by
  induction k with
  | zero => rfl
  | succ k ih =>
    obtain ⟨x, hx⟩ := hdef
    simp [List.replicate_succ, runOps, applyOp, hx, ih]

/-- C1: FIFO order — pushing any sequence of values into a fresh queue and
then popping that many times succeeds and yields exactly the pushed values
in push order. -/
theorem claim_fifo_order (vs : List Int) :
    ∃ q q2, pushAll Queue.init vs = some q ∧
      popN q vs.length = some (vs, q2) := by
  obtain ⟨q, l, hpush, hinv, hvals⟩ := pushAll_abs vs Queue.init [] inv_init
  have hvals2 : valsOf l = vs := by simpa [valsOf] using hvals
  have hlen : l.length = vs.length := by
    rw [← hvals2]
    simp [valsOf]
  obtain ⟨q2, hpop, -⟩ := popN_abs l q hinv
  refine ⟨q, q2, hpush, ?_⟩
  rw [← hlen, hpop, hvals2]

/-- C2: evaluation of the code at the failing input.  The claim demands an
EmptyQueue error distinguishable from every legitimately stored value, but
the code answers an empty-queue pop or front with the sentinel -1 — exactly
the result a caller gets from a queue legitimately holding -1: the two are
indistinguishable at the interface. -/
theorem claim_empty_error_is_sentinel :
    (Queue.init.pop).map Prod.fst = some (-1) ∧
    Queue.init.front = some (-1) ∧
    Queue.init.push (-1) = some qneg1 ∧
    (qneg1.pop).map Prod.fst = (Queue.init.pop).map Prod.fst ∧
    qneg1.front = Queue.init.front := by decide

/-- C3: size accounting — running any operation sequence from a fresh queue
is defined, and afterwards size() equals the number of pushes minus the
number of successful pops and is never negative. -/
theorem claim_size_accounting (ops : List Op) :
    ∃ q p s, runCount Queue.init 0 0 ops = some (q, p, s) ∧
      q.size = (p : Int) - (s : Int) ∧ 0 ≤ q.size := by
  obtain ⟨q, p, s, hrun, l, hinv, hc⟩ :=
    runCount_abs ops Queue.init [] 0 0 inv_init (by simp [Queue.init])
  refine ⟨q, p, s, hrun, hc, ?_⟩
  have := hinv.len
  simp only [Queue.size]
  omega

/-- C4: emptiness invariant — in every state reachable from the constructor,
count is zero iff frontNode is null iff rearNode is null. -/
theorem claim_emptiness_invariant (ops : List Op) (q : Queue)
    (h : runOps Queue.init ops = some q) :
    (q.count = 0 ↔ q.frontNode = none) ∧
    (q.frontNode = none ↔ q.rearNode = none) := by
  obtain ⟨l, hq⟩ := reachable_inv h
  cases l with
  | nil =>
    have h1 : q.count = 0 := by simpa using hq.len
    have h2 := inv_front_none hq
    have h3 : q.rearNode = none := by simpa [addrsOf] using hq.rear
    simp [h1, h2, h3]
  | cons c rest =>
    have h1 : q.count ≠ 0 := by
      have := hq.len
      simp at this
      omega
    have h2 := inv_front_some hq
    have h3 : ∃ t, q.rearNode = some t := by
      have hs : ((addrsOf (c :: rest)).getLast?).isSome :=
        List.getLast?_isSome.mpr (by simp [addrsOf])
      obtain ⟨t, ht⟩ := Option.isSome_iff_exists.mp hs
      exact ⟨t, by rw [hq.rear, ht]⟩
    obtain ⟨t, h3⟩ := h3
    simp [h1, h2, h3]

/-- Witness for C4: the invariant instantiated at the reachable state after
push(10). -/
theorem claim_emptiness_invariant_witness :
    (q10.count = 0 ↔ q10.frontNode = none) ∧
    (q10.frontNode = none ↔ q10.rearNode = none) :=
  claim_emptiness_invariant [Op.push 10] q10 (by decide)

/-- C5: chain structure — in every reachable state with count > 0, following
next links from frontNode reaches rearNode after exactly count - 1 steps,
and the rear node's next pointer is null. -/
theorem claim_chain_structure (ops : List Op) (q : Queue)
    (h : runOps Queue.init ops = some q) (hpos : 0 < q.count) :
    ∃ t, q.rearNode = some t ∧
      follow q.heap q.frontNode (q.count - 1).toNat = some (some t) ∧
      (getNode q.heap t).map Node.next = some none := by
  obtain ⟨l, hq⟩ := reachable_inv h
  rcases List.eq_nil_or_concat l with rfl | ⟨l0, c, rfl⟩
  · have : q.count = 0 := by simpa using hq.len
    omega
  · simp only [List.concat_eq_append] at hq
    obtain ⟨ndr, hseg0, hgr, hvr, hnr⟩ := chainSeg_concat.mp hq.chain
    have hfol := chainSeg_follow hseg0
    have hlen : (q.count - 1).toNat = l0.length := by
      have := hq.len
      simp at this
      omega
    refine ⟨c.1, ?_, ?_, ?_⟩
    · simpa [addrsOf] using hq.rear
    · rw [hlen]
      exact hfol
    · simp [hgr, hnr]

/-- Witness for C5: the chain shape at the reachable state after
push(10); push(20). -/
theorem claim_chain_structure_witness :
    ∃ t, q1020.rearNode = some t ∧
      follow q1020.heap q1020.frontNode (q1020.count - 1).toNat =
        some (some t) ∧
      (getNode q1020.heap t).map Node.next = some none :=
  claim_chain_structure [Op.push 10, Op.push 20] q1020 (by decide) (by decide)

/-- C6: pop success effect — on every reachable non-empty queue, pop returns
the value at the head node, advances frontNode to the head's next pointer,
decrements count, resets rearNode to null whenever the queue drains, and a
subsequent push then reinitializes both frontNode and rearNode to the fresh
node. -/
theorem claim_pop_success_effect (ops : List Op) (q : Queue)
    (h : runOps Queue.init ops = some q) (hpos : 0 < q.count) :
    ∃ a nd q2, q.frontNode = some a ∧ getNode q.heap a = some nd ∧
      q.pop = some (nd.val, q2) ∧ q2.frontNode = nd.next ∧
      q2.count = q.count - 1 ∧
      (nd.next = none → q2.rearNode = none) ∧
      (nd.next = none → ∀ v, ∃ q3, q2.push v = some q3 ∧
        q3.frontNode = some q2.heap.length ∧
        q3.rearNode = some q2.heap.length) := by
  obtain ⟨l, hq⟩ := reachable_inv h
  cases l with
  | nil =>
    have : q.count = 0 := by simpa using hq.len
    omega
  | cons c rest =>
    obtain ⟨hp, nd, hg, hv, hrest⟩ := hq.chain
    refine ⟨c.1, nd,
      { heap := q.heap.set c.1 none, frontNode := nd.next,
        rearNode := if nd.next = none then none else q.rearNode,
        count := q.count - 1 },
      hp, hg, by simp [Queue.pop, hp, hg], rfl, rfl, ?_, ?_⟩
    · intro hnn
      simp [hnn]
    · intro hnn v
      refine ⟨{ heap := q.heap.set c.1 none ++ [some ⟨v, none⟩],
                frontNode := some (q.heap.set c.1 none).length,
                rearNode := some (q.heap.set c.1 none).length,
                count := (q.count - 1) + 1 }, ?_, rfl, rfl⟩
      simp [Queue.push, hnn]

/-- Witness for C6: pop at the reachable single-element state after
push(7). -/
theorem claim_pop_success_effect_witness :
    ∃ a nd q2, q7.frontNode = some a ∧ getNode q7.heap a = some nd ∧
      q7.pop = some (nd.val, q2) ∧ q2.frontNode = nd.next ∧
      q2.count = q7.count - 1 ∧
      (nd.next = none → q2.rearNode = none) ∧
      (nd.next = none → ∀ v, ∃ q3, q2.push v = some q3 ∧
        q3.frontNode = some q2.heap.length ∧
        q3.rearNode = some q2.heap.length) :=
  claim_pop_success_effect [Op.push 7] q7 (by decide) (by decide)

/-- C7: error atomicity — on every reachable empty queue, pop returns -1
with the state bit-for-bit unchanged, and front returns -1 without
mutating anything. -/
theorem claim_empty_error_atomicity (ops : List Op) (q : Queue)
    (h : runOps Queue.init ops = some q) (hz : q.count = 0) :
    q.pop = some (-1, q) ∧ q.front = some (-1) := by
  obtain ⟨l, hq⟩ := reachable_inv h
  cases l with
  | cons c rest =>
    have := hq.len
    rw [hz] at this
    simp at this
    omega
  | nil => exact ⟨pop_inv_nil hq, front_inv_nil hq⟩

/-- Witness for C7: the freshly constructed queue. -/
theorem claim_empty_error_atomicity_witness :
    Queue.init.pop = some (-1, Queue.init) ∧
    Queue.init.front = some (-1) :=
  claim_empty_error_atomicity [] Queue.init rfl rfl

/-- C8: teardown — destroying any reachable queue walks the chain from
frontNode, frees exactly the chain's nodes once each in head order (count
many of them), frees every live node (no leak), and leaves no live slot in
the heap. -/
theorem claim_teardown_frees_exactly_once (ops : List Op) (q : Queue)
    (h : runOps Queue.init ops = some q) :
    ∃ freed h2, q.destruct = some (freed, h2) ∧ freed.Nodup ∧
      (∃ l, isChain q.heap q.frontNode l ∧ freed = addrsOf l ∧
        (freed.length : Int) = q.count) ∧
      (∀ a nd, getNode q.heap a = some nd → a ∈ freed) ∧
      (∀ a, getNode h2 a = none) := by
  obtain ⟨l, hq⟩ := reachable_inv h
  have hsub : addrsOf l ⊆ List.range q.heap.length := by
    intro a ha
    exact List.mem_range.mpr (chainSeg_addr_lt hq.chain a ha)
  have hlle : l.length ≤ q.heap.length := by
    have := (List.subperm_of_subset hq.nodup hsub).length_le
    simpa [addrsOf] using this
  obtain ⟨h2, hdl, hprop⟩ := destroyLoop_chain l q.heap q.frontNode
    q.heap.length hq.chain hq.nodup hlle
  refine ⟨addrsOf l, h2, by simpa [Queue.destruct] using hdl, hq.nodup,
    ⟨l, hq.chain, rfl, ?_⟩, hq.live, ?_⟩
  · rw [hq.len]
    simp [addrsOf]
  · intro a
    rw [hprop a]
    by_cases ha : a ∈ addrsOf l
    · simp [ha]
    · rw [if_neg ha]
      cases hgn : getNode q.heap a with
      | none => rfl
      | some nd => exact absurd (hq.live a nd hgn) ha

/-- Witness for C8: teardown of the reachable state after
push(10); push(20); pop(), whose heap holds one already-freed slot and one
live node. -/
theorem claim_teardown_frees_exactly_once_witness :
    ∃ freed h2, qPPP.destruct = some (freed, h2) ∧ freed.Nodup ∧
      (∃ l, isChain qPPP.heap qPPP.frontNode l ∧ freed = addrsOf l ∧
        (freed.length : Int) = qPPP.count) ∧
      (∀ a nd, getNode qPPP.heap a = some nd → a ∈ freed) ∧
      (∀ a, getNode h2 a = none) :=
  claim_teardown_frees_exactly_once [Op.push 10, Op.push 20, Op.pop] qPPP
    (by decide)

/-- C9: sentinel collision — pop and front on an empty queue return the
integer -1, and pop and front on a queue legitimately storing -1 return
that same integer -1, so the error return is indistinguishable from the
success return at that input. -/
theorem claim_sentinel_collision :
    Queue.init.push (-1) = some qneg1 ∧
    qneg1.front = some (-1) ∧
    (qneg1.pop).map Prod.fst = some (-1) ∧
    Queue.init.front = some (-1) ∧
    (Queue.init.pop).map Prod.fst = some (-1) := by decide

/-- C10: front/pop agreement — on every reachable non-empty queue, front
returns exactly the value the next pop returns, and any number of
intervening front calls leaves the state (hence the popped value)
unchanged. -/
theorem claim_front_pop_agreement (ops : List Op) (q : Queue) (k : Nat)
    (h : runOps Queue.init ops = some q) (hpos : 0 < q.count) :
    ∃ v q2, q.front = some v ∧ q.pop = some (v, q2) ∧
      runOps q (List.replicate k Op.front) = some q := by
  obtain ⟨l, hq⟩ := reachable_inv h
  cases l with
  | nil =>
    have : q.count = 0 := by simpa using hq.len
    omega
  | cons c rest =>
    obtain ⟨q2, hpop, -⟩ := pop_inv_cons hq
    exact ⟨c.2, q2, front_inv_cons hq, hpop,
      runOps_replicate_front (front_inv_defined hq) k⟩

/-- Witness for C10: at the reachable state after push(5), with three
intervening front calls. -/
theorem claim_front_pop_agreement_witness :
    ∃ v q2, q5.front = some v ∧ q5.pop = some (v, q2) ∧
      runOps q5 (List.replicate 3 Op.front) = some q5 :=
  claim_front_pop_agreement [Op.push 5] q5 3 (by decide) (by decide)
